import Mathlib

/-!
Verification of the PageRank core of `pagerank.py` against its
natural-language specification.

The Python source is embedded shallowly:

* a corpus (Python dict mapping a page name to the set of pages it links
  to) becomes a `Graph`: the dict's key list (in insertion order, hence
  without duplicates) plus an out-link function returning a `Finset`;
* Python floats are modelled as exact rationals `ℚ`;
* the dict lookup `corpus[page]` in `transition_model`, which raises
  `KeyError` for a missing page, becomes an `Except` result;
* the in-place round of `iterate_pagerank` (the dict `ranks` is mutated
  while the round is still being computed) becomes a left-to-right fold
  `sweepAux` over the key list using `Function.update`;
* the unbounded `while True` loop becomes the fuel-indexed `iterate_go`;
  termination of the Python loop is the statement that some fuel returns
  `some`;
* the randomness in `sample_pagerank` (`random.choice`, `random.choices`)
  is abstracted into an oracle giving the first page and the page drawn at
  every later step; `random.choices` always returns a member of the
  population it is given, which is the key list of the transition
  distribution.
-/

namespace PageRank

abbrev Node := String

/-- A corpus: the dict's key list (nodup, insertion order) and the set of
out-links of each key. -/
structure Graph where
  keys : List Node
  nodup : keys.Nodup
  out : Node → Finset Node

/-- The invariant of the spec's data model: every out-link target of a key
is itself a key. -/
def GraphWF (g : Graph) : Prop := ∀ q ∈ g.keys, g.out q ⊆ g.keys.toFinset

/-- The spec's other data-model invariant: no self-loops. -/
def NoSelfLoops (g : Graph) : Prop := ∀ q ∈ g.keys, q ∉ g.out q

instance (g : Graph) : Decidable (GraphWF g) := by
  unfold GraphWF; infer_instance

instance (g : Graph) : Decidable (NoSelfLoops g) := by
  unfold NoSelfLoops; infer_instance

/-- The error raised by the dict lookup `corpus[page]` on a page that is
not a key: Python's `KeyError`, the code's realization of the spec's
`UnknownNodeError`. -/
inductive PyErr where
  | keyError (k : Node)
deriving DecidableEq

/-- Embedding of `transition_model(corpus, page, damping_factor)`
(pagerank.py lines 51-81).  The returned dict maps every corpus key `p` to
`(d * 1/len(page_links) if p in page_links else 0) + (1-d) * 1/N`; a link
target outside the corpus would receive only the first term (the second
loop runs over corpus keys only).  `corpus[page]` raises `KeyError` when
`page` is not a key. -/
def transition_model (g : Graph) (page : Node) (damping_factor : ℚ) :
    Except PyErr (Node → ℚ) :=
  if page ∈ g.keys then
    Except.ok (fun p =>
      (if p ∈ g.out page then damping_factor * (1 / ((g.out page).card : ℚ)) else 0) +
      (if p ∈ g.keys then (1 - damping_factor) * (1 / (g.keys.length : ℚ)) else 0))
  else
    Except.error (PyErr.keyError page)

/-- The inner loop of `iterate_pagerank`'s round (lines 143-146): the sum
over all pages of `ranks[page]/len(corpus[page])` for the pages whose
out-set contains `key`.  Sink pages never satisfy the membership test, so
they contribute nothing. -/
def sigma (g : Graph) (ranks : Node → ℚ) (key : Node) : ℚ :=
  (g.keys.map (fun page =>
    if key ∈ g.out page then ranks page / ((g.out page).card : ℚ) else 0)).sum

/-- The value `new` computed for `key` in a round (lines 141-148). -/
def newRank (g : Graph) (d : ℚ) (ranks : Node → ℚ) (key : Node) : ℚ :=
  (1 - d) / (g.keys.length : ℚ) + d * sigma g ranks key

/-- One round of the `while` loop: the keys are processed in dict order
and `ranks[key] = new` is executed immediately (line 151), so later keys
read already-updated values. -/
def sweepAux (g : Graph) (d : ℚ) : List Node → (Node → ℚ) → (Node → ℚ)
  | [], r => r
  | k :: ks, r => sweepAux g d ks (Function.update r k (newRank g d r k))

/-- One full round over all corpus keys. -/
def sweep (g : Graph) (d : ℚ) (r : Node → ℚ) : Node → ℚ := sweepAux g d g.keys r

/-- The initial rank table: `1/N` for every corpus key (lines 133-136). -/
def initRank (g : Graph) : Node → ℚ :=
  fun p => if p ∈ g.keys then 1 / (g.keys.length : ℚ) else 0

/-- The hard-coded local `threshold = 0.0005` of `iterate_pagerank`
(line 130). -/
def iterate_threshold : ℚ := 1 / 2000

/-- The break test of a round: `count` (line 139-150) counts the keys
whose change is below the threshold, and the loop breaks when
`count == N` (line 152). -/
def convergedRound (g : Graph) (t : ℚ) (old new : Node → ℚ) : Bool :=
  (g.keys.countP (fun p => decide (|new p - old p| < t))) = g.keys.length

/-- The `while True` loop of `iterate_pagerank` (lines 138-153), indexed
by fuel; `none` means the loop was still running after `fuel` rounds. -/
def iterate_go (g : Graph) (d t : ℚ) : ℕ → (Node → ℚ) → Option (Node → ℚ)
  | 0, _ => none
  | fuel + 1, r =>
    let r' := sweep g d r
    if convergedRound g t r r' then some r' else iterate_go g d t fuel r'

/-- Embedding of `iterate_pagerank(corpus, damping_factor)` (lines
120-154): signature `(corpus, damping_factor)` only, threshold fixed
internally.  `fuel` bounds the unbounded Python loop. -/
def iterate_pagerank (g : Graph) (damping_factor : ℚ) (fuel : ℕ) :
    Option (Node → ℚ) :=
  iterate_go g damping_factor iterate_threshold fuel (initRank g)

/-- Embedding of `sample_pagerank(corpus, damping_factor, n)` (lines
84-115).  `first` is the page returned by `random.choice(pages)` and
`pick i` the page returned by `random.choices(...)` at step `i`; the
counters start at `0` for every key, the first page's counter is set to
`1/n`, and each of the remaining `n-1` draws adds `1/n` to the drawn
page's counter. -/
def sample_pagerank (g : Graph) (damping_factor : ℚ) (n : ℕ)
    (first : Node) (pick : ℕ → Node) : Node → ℚ :=
  (List.range (n - 1)).foldl
    (fun counts i =>
      Function.update counts (pick i) (counts (pick i) + 1 / (n : ℚ)))
    (Function.update (fun _ => 0) first (1 / (n : ℚ)))

/-! Concrete corpora used as failing inputs and witnesses. -/

/-- One-page corpus consisting of a single sink: the dict from the Python
literal with page a and no out-links. -/
def gSink : Graph := ⟨["a"], by decide, fun _ => ∅⟩

/-- Two-page corpus: a links to b and b links to a. -/
def out2 : Node → Finset Node :=
  fun q => if q = "a" then {"b"} else if q = "b" then {"a"} else ∅

def g2 : Graph := ⟨["a", "b"], by decide, out2⟩

/-- Three-page corpus of the spec's sink scenario: a links to b and c,
b is a sink, c links to a. -/
def out3 : Node → Finset Node :=
  fun q => if q = "a" then {"b", "c"} else if q = "c" then {"a"} else ∅

def g3 : Graph := ⟨["a", "b", "c"], by decide, out3⟩

/-- Out-link map for the order-dependence corpora: a links to b, b and c
both link to a. -/
def outOrd : Node → Finset Node :=
  fun q => if q = "a" then {"b"} else if q = "b" then {"a"}
    else if q = "c" then {"a"} else ∅

/-- The order-dependence corpus with keys inserted in order a, b, c. -/
def gOrd1 : Graph := ⟨["a", "b", "c"], by decide, outOrd⟩

/-- The same corpus as a map, with keys inserted in order b, a, c. -/
def gOrd2 : Graph := ⟨["b", "a", "c"], by decide, outOrd⟩

/-! Definitions supporting the termination analysis of the iteration
loop: key positions, contribution coefficients, and per-round change
quantities. -/

/-- The page at position `j` of the key list (default value for an
out-of-range index, never used there). -/
def nodeAt (g : Graph) (j : ℕ) : Node := g.keys.getD j ""

/-- Contribution coefficient of position `j` to position `i`: what a round
adds to key `i`'s incoming sum per unit of rank held at key `j`. -/
def coefA (g : Graph) (i j : ℕ) : ℚ :=
  if nodeAt g i ∈ g.out (nodeAt g j) then (1 : ℚ) / ((g.out (nodeAt g j)).card : ℚ) else 0

/-- Sum, over later positions, of a column of coefficients. -/
def colS (g : Graph) (j : ℕ) : ℚ :=
  ∑ i in (Finset.range g.keys.length).filter (fun i => j < i), coefA g i j

/-- Sum, over positions up to `j`, of a column of coefficients. -/
def colT (g : Graph) (j : ℕ) : ℚ :=
  ∑ i in (Finset.range g.keys.length).filter (fun i => ¬ j < i), coefA g i j

/-- The rank table at the start of round `k + 1` (so `roundTable 0` is
the uniform initial table). -/
def roundTable (g : Graph) (d : ℚ) (k : ℕ) : Node → ℚ := (sweep g d)^[k] (initRank g)

/-- Absolute change of the key at position `j` during round `k + 1`. -/
def roundAbsDelta (g : Graph) (d : ℚ) (k j : ℕ) : ℚ :=
  |roundTable g d (k + 1) (nodeAt g j) - roundTable g d k (nodeAt g j)|

/-- Total (L1) change of round `k + 1`. -/
def roundD (g : Graph) (d : ℚ) (k : ℕ) : ℚ :=
  ∑ j in Finset.range g.keys.length, roundAbsDelta g d k j

def roundU (g : Graph) (d : ℚ) (k : ℕ) : ℚ :=
  ∑ j in Finset.range g.keys.length, colS g j * roundAbsDelta g d k j

def roundV (g : Graph) (d : ℚ) (k : ℕ) : ℚ :=
  ∑ j in Finset.range g.keys.length, colT g j * roundAbsDelta g d k j

/-! Infrastructure for the termination proof of the iteration loop. -/

/-- A list sum over the keys as a sum over positions. -/

theorem sum_map_getD (l : List Node) (f : Node → ℚ) :
    (l.map f).sum = ∑ j in Finset.range l.length, f (l.getD j "") := by
  induction l with
  | nil => simp
  | cons a l ih =>
    rw [List.map_cons, List.sum_cons, ih, List.length_cons, Finset.sum_range_succ']
    simp only [List.getD_cons_succ, List.getD_cons_zero]
    exact add_comm _ _

/-- A round never touches a page outside the processed key list. -/

theorem sweepAux_not_mem (g : Graph) (d : ℚ) (l : List Node) (r : Node → ℚ)
    (p : Node) (hp : p ∉ l) : sweepAux g d l r p = r p := by
  induction l generalizing r with
  | nil => rfl
  | cons k ks ih =>
    simp only [sweepAux]
    rw [ih _ (fun h => hp (List.mem_cons_of_mem _ h))]
    exact Function.update_noteq (fun h => hp (by rw [h]; exact List.mem_cons_self k ks)) _ _

/-- The first processed key is written from the incoming table. -/

theorem sweepAux_head (g : Graph) (d : ℚ) (k : Node) (ks : List Node)
    (r : Node → ℚ) (hk : k ∉ ks) :
    sweepAux g d (k :: ks) r k = newRank g d r k := by
  simp only [sweepAux]
  rw [sweepAux_not_mem g d ks _ k hk, Function.update_same]

/-- Value written for key `k` during a round: the keys before `k` in dict
order are read at their already-updated values, the others (including `k`
itself) at the previous round's values. -/

theorem sweepAux_split (g : Graph) (d : ℚ) :
    ∀ (l : List Node), l.Nodup → ∀ (r : Node → ℚ) (pre suf : List Node) (k : Node),
      l = pre ++ k :: suf →
      sweepAux g d l r k =
        newRank g d (fun q => if q ∈ pre then sweepAux g d l r q else r q) k := by
  intro l
  induction l with
  | nil =>
    intro _ r pre suf k h
    exact absurd h (by simp)
  | cons x l' ih =>
    intro hl r pre suf k h
    rcases List.nodup_cons.mp hl with ⟨hx, hl'⟩
    cases pre with
    | nil =>
      rw [List.nil_append] at h
      injection h with h1 h2
      subst h1
      subst h2
      have hmix : (fun q => if q ∈ ([] : List Node) then sweepAux g d (x :: l') r q else r q)
          = r := by
        funext q
        simp
      rw [hmix]
      exact sweepAux_head g d x l' r hx
    | cons y pre' =>
      rw [List.cons_append] at h
      injection h with h1 h2
      subst h1
      have hstep : sweepAux g d (x :: l') r
          = sweepAux g d l' (Function.update r x (newRank g d r x)) := rfl
      have ihx := ih hl' (Function.update r x (newRank g d r x)) pre' suf k h2
      rw [hstep, ihx]
      congr 1
      funext q
      by_cases hq1 : q ∈ pre'
      · rw [if_pos hq1, if_pos (List.mem_cons_of_mem x hq1)]
      · by_cases hq2 : q = x
        · have hqmem : q ∈ x :: pre' := by rw [hq2]; exact List.mem_cons_self x pre'
          have hql' : q ∉ l' := by rw [hq2]; exact hx
          rw [if_neg hq1, if_pos hqmem, sweepAux_not_mem g d l' _ q hql']
        · have hqmem : q ∉ x :: pre' := by
            intro hmem
            rcases List.mem_cons.mp hmem with h' | h'
            · exact hq2 h'
            · exact hq1 h'
          rw [if_neg hq1, if_neg hqmem]
          exact Function.update_noteq hq2 _ _

/-- Splitting the key list at position `i`. -/

theorem take_getD_cons_drop (l : List Node) (i : ℕ) (h : i < l.length) :
    l = l.take i ++ l.getD i "" :: l.drop (i + 1) := by
  rw [List.getD_eq_getElem l "" h, ← List.drop_eq_getElem_cons h, List.take_append_drop]



/-- Position `j` of a nodup list lies in the first `i` elements exactly
when `j < i`. -/

theorem getD_mem_take_iff (l : List Node) (hl : l.Nodup) {i j : ℕ}
    (hj : j < l.length) (hi : i ≤ l.length) :
    l.getD j "" ∈ l.take i ↔ j < i := by
  constructor
  · intro hmem
    obtain ⟨j', hj', hval⟩ := List.mem_iff_getElem.mp hmem
    have hlen : (l.take i).length = i := by
      rw [List.length_take]
      omega
    have hj'i : j' < i := by omega
    have hj'l : j' < l.length := by omega
    have heq : l[j'] = l[j] := by
      rw [← List.getD_eq_getElem l "" hj, ← hval]
      exact (List.getElem_take l).symm
    have := (hl.getElem_inj_iff).mp heq
    omega
  · intro hij
    have hlen : j < (l.take i).length := by
      rw [List.length_take]
      omega
    have heq : (l.take i)[j] = l.getD j "" := by
      rw [List.getD_eq_getElem l "" hj]
      exact List.getElem_take l
    rw [← heq]
    exact List.getElem_mem hlen

/-- The in-place round characterized position by position. -/

theorem sweep_getD (g : Graph) (d : ℚ) (r : Node → ℚ) (i : ℕ)
    (hi : i < g.keys.length) :
    sweep g d r (nodeAt g i) =
      newRank g d (fun q => if q ∈ g.keys.take i then sweep g d r q else r q)
        (nodeAt g i) :=
  sweepAux_split g d g.keys g.nodup r (g.keys.take i) (g.keys.drop (i + 1))
    (nodeAt g i) (take_getD_cons_drop g.keys i hi)



theorem coefA_nonneg (g : Graph) (i j : ℕ) : 0 ≤ coefA g i j := by
  unfold coefA
  by_cases h : nodeAt g i ∈ g.out (nodeAt g j)
  · rw [if_pos h]
    positivity
  · rw [if_neg h]

/-- Position `j` of a nodup key list lies among the first `i` keys exactly
when `j < i`. -/

theorem nodeAt_mem_take_iff (g : Graph) {i j : ℕ} (hj : j < g.keys.length)
    (hi : i ≤ g.keys.length) : nodeAt g j ∈ g.keys.take i ↔ j < i :=
  getD_mem_take_iff g.keys g.nodup hj hi

/-- Each column of the coefficient matrix sums to at most one: a page's
rank is split among at most `len(corpus[page])` distinct recipients. -/

theorem coefA_col_sum_le_one (g : Graph) (j : ℕ) :
    ∑ i in Finset.range g.keys.length, coefA g i j ≤ 1 := by
  rcases Nat.eq_zero_or_pos (g.out (nodeAt g j)).card with hc | hc
  · have hS : g.out (nodeAt g j) = ∅ := Finset.card_eq_zero.mp hc
    simp [coefA, hS]
  · simp only [coefA]
    rw [Finset.sum_ite, Finset.sum_const_zero, add_zero, Finset.sum_const, nsmul_eq_mul]
    have hcard : ((Finset.range g.keys.length).filter
        (fun i => nodeAt g i ∈ g.out (nodeAt g j))).card ≤ (g.out (nodeAt g j)).card := by
      apply Finset.card_le_card_of_injOn (fun i => nodeAt g i)
      · intro i hi
        exact (Finset.mem_filter.mp hi).2
      · intro i1 hi1 i2 hi2 he
        have h1 : i1 < g.keys.length :=
          Finset.mem_range.mp (Finset.mem_filter.mp (Finset.mem_coe.mp hi1)).1
        have h2 : i2 < g.keys.length :=
          Finset.mem_range.mp (Finset.mem_filter.mp (Finset.mem_coe.mp hi2)).1
        have hg : g.keys[i1] = g.keys[i2] := by
          rw [← List.getD_eq_getElem g.keys "" h1, ← List.getD_eq_getElem g.keys "" h2]
          exact he
        exact (g.nodup.getElem_inj_iff).mp hg
    have hcpos : (0 : ℚ) < ((g.out (nodeAt g j)).card : ℚ) := by
      exact_mod_cast hc
    calc (((Finset.range g.keys.length).filter
            (fun i => nodeAt g i ∈ g.out (nodeAt g j))).card : ℚ) *
          ((1 : ℚ) / ((g.out (nodeAt g j)).card : ℚ))
        ≤ ((g.out (nodeAt g j)).card : ℚ) * ((1 : ℚ) / ((g.out (nodeAt g j)).card : ℚ)) := by
          apply mul_le_mul_of_nonneg_right
          · exact_mod_cast hcard
          · positivity
      _ = 1 := by field_simp

/-- The sum of `iterate_pagerank`'s inner loop, written over key
positions. -/

theorem sigma_eq_sum (g : Graph) (f : Node → ℚ) (key : Node) :
    sigma g f key = ∑ j in Finset.range g.keys.length,
      (if key ∈ g.out (nodeAt g j) then f (nodeAt g j) / ((g.out (nodeAt g j)).card : ℚ)
       else 0) := by
  unfold sigma
  rw [sum_map_getD]
  rfl

/-- The change of key `i` between two consecutive rounds: a damped mix of
this round's changes at earlier keys and the previous round's changes at
the remaining keys. -/

theorem sweep_delta_eq (g : Graph) (d : ℚ) (r : Node → ℚ) (i : ℕ)
    (hi : i < g.keys.length) :
    sweep g d (sweep g d r) (nodeAt g i) - sweep g d r (nodeAt g i) =
      d * ∑ j in Finset.range g.keys.length, coefA g i j *
        (if j < i then sweep g d (sweep g d r) (nodeAt g j) - sweep g d r (nodeAt g j)
         else sweep g d r (nodeAt g j) - r (nodeAt g j)) := by
  rw [sweep_getD g d r i hi, sweep_getD g d (sweep g d r) i hi]
  unfold newRank
  rw [sigma_eq_sum, sigma_eq_sum, add_sub_add_left_eq_sub, ← mul_sub,
    ← Finset.sum_sub_distrib]
  congr 1
  apply Finset.sum_congr rfl
  intro j hj
  have hjn : j < g.keys.length := Finset.mem_range.mp hj
  have hmem := nodeAt_mem_take_iff g hjn (le_of_lt hi)
  by_cases hout : nodeAt g i ∈ g.out (nodeAt g j)
  · rw [if_pos hout, if_pos hout]
    unfold coefA
    rw [if_pos hout]
    by_cases hji : j < i
    · rw [if_pos (hmem.mpr hji), if_pos (hmem.mpr hji), if_pos hji,
        div_sub_div_same, one_div_mul_eq_div]
    · rw [if_neg (fun h => hji (hmem.mp h)), if_neg (fun h => hji (hmem.mp h)),
        if_neg hji, div_sub_div_same, one_div_mul_eq_div]
  · rw [if_neg hout, if_neg hout]
    unfold coefA
    rw [if_neg hout, zero_mul, sub_zero]

/-- Absolute value of the recurrence for one position. -/

theorem sweep_delta_abs_le (g : Graph) (d : ℚ) (hd : 0 ≤ d) (r : Node → ℚ) (i : ℕ)
    (hi : i < g.keys.length) :
    |sweep g d (sweep g d r) (nodeAt g i) - sweep g d r (nodeAt g i)| ≤
      d * ∑ j in Finset.range g.keys.length, coefA g i j *
        (if j < i then |sweep g d (sweep g d r) (nodeAt g j) - sweep g d r (nodeAt g j)|
         else |sweep g d r (nodeAt g j) - r (nodeAt g j)|) := by
  rw [sweep_delta_eq g d r i hi, abs_mul, abs_of_nonneg hd]
  apply mul_le_mul_of_nonneg_left _ hd
  apply le_trans (Finset.abs_sum_le_sum_abs _ _)
  apply le_of_eq
  apply Finset.sum_congr rfl
  intro j _
  rw [abs_mul, abs_of_nonneg (coefA_nonneg g i j), apply_ite abs]





theorem colS_nonneg (g : Graph) (j : ℕ) : 0 ≤ colS g j :=
  Finset.sum_nonneg fun i _ => coefA_nonneg g i j

theorem colT_nonneg (g : Graph) (j : ℕ) : 0 ≤ colT g j :=
  Finset.sum_nonneg fun i _ => coefA_nonneg g i j

theorem colS_add_colT_le_one (g : Graph) (j : ℕ) : colS g j + colT g j ≤ 1 := by
  unfold colS colT
  rw [Finset.sum_filter_add_sum_filter_not]
  exact coefA_col_sum_le_one g j

/-- The total change of a round, bounded by a damped split of this
round's and the previous round's total change. -/

theorem sweep_deltas_L1 (g : Graph) (d : ℚ) (hd : 0 ≤ d) (r : Node → ℚ) :
    ∑ i in Finset.range g.keys.length,
        |sweep g d (sweep g d r) (nodeAt g i) - sweep g d r (nodeAt g i)| ≤
      d * ((∑ j in Finset.range g.keys.length,
              colS g j * |sweep g d (sweep g d r) (nodeAt g j) - sweep g d r (nodeAt g j)|) +
           (∑ j in Finset.range g.keys.length,
              colT g j * |sweep g d r (nodeAt g j) - r (nodeAt g j)|)) := by
  have h1 : ∑ i in Finset.range g.keys.length,
        |sweep g d (sweep g d r) (nodeAt g i) - sweep g d r (nodeAt g i)| ≤
      ∑ i in Finset.range g.keys.length,
        d * ∑ j in Finset.range g.keys.length, coefA g i j *
          (if j < i then |sweep g d (sweep g d r) (nodeAt g j) - sweep g d r (nodeAt g j)|
           else |sweep g d r (nodeAt g j) - r (nodeAt g j)|) :=
    Finset.sum_le_sum (fun i hi => sweep_delta_abs_le g d hd r i (Finset.mem_range.mp hi))
  apply le_trans h1
  rw [← Finset.mul_sum]
  apply mul_le_mul_of_nonneg_left _ hd
  rw [Finset.sum_comm]
  apply le_of_eq
  rw [← Finset.sum_add_distrib]
  apply Finset.sum_congr rfl
  intro j _
  unfold colS colT
  rw [Finset.sum_mul, Finset.sum_mul,
    ← Finset.sum_filter_add_sum_filter_not (Finset.range g.keys.length) (fun i => j < i)]
  congr 1
  · apply Finset.sum_congr rfl
    intro i hi
    rw [if_pos (Finset.mem_filter.mp hi).2]
  · apply Finset.sum_congr rfl
    intro i hi
    rw [if_neg (Finset.mem_filter.mp hi).2]







theorem roundTable_succ (g : Graph) (d : ℚ) (k : ℕ) :
    roundTable g d (k + 1) = sweep g d (roundTable g d k) :=
  Function.iterate_succ_apply' (sweep g d) k (initRank g)

theorem roundD_succ_le (g : Graph) (d : ℚ) (hd : 0 ≤ d) (k : ℕ) :
    roundD g d (k + 1) ≤ d * (roundU g d (k + 1) + roundV g d k) := by
  have h := sweep_deltas_L1 g d hd (roundTable g d k)
  rw [← roundTable_succ g d k] at h
  rw [← roundTable_succ g d (k + 1)] at h
  simp only [roundD, roundU, roundV, roundAbsDelta]
  exact h

theorem roundD_nonneg (g : Graph) (d : ℚ) (k : ℕ) : 0 ≤ roundD g d k :=
  Finset.sum_nonneg fun j _ => abs_nonneg _

theorem roundV_nonneg (g : Graph) (d : ℚ) (k : ℕ) : 0 ≤ roundV g d k :=
  Finset.sum_nonneg fun j _ => mul_nonneg (colT_nonneg g j) (abs_nonneg _)

theorem roundUV_le_D (g : Graph) (d : ℚ) (k : ℕ) :
    roundU g d k + roundV g d k ≤ roundD g d k := by
  unfold roundU roundV roundD
  rw [← Finset.sum_add_distrib]
  apply Finset.sum_le_sum
  intro j _
  rw [← add_mul]
  exact mul_le_of_le_one_left (abs_nonneg _) (colS_add_colT_le_one g j)

theorem roundV_le_D (g : Graph) (d : ℚ) (k : ℕ) :
    roundV g d k ≤ roundD g d k := by
  unfold roundV roundD
  apply Finset.sum_le_sum
  intro j _
  exact mul_le_of_le_one_left (abs_nonneg _)
    (by linarith [colS_nonneg g j, colS_add_colT_le_one g j])

/-- Amortized bound: the total change summed over all rounds after the
first is bounded, uniformly in the number of rounds. -/

theorem sum_roundD_le (g : Graph) (d : ℚ) (hd0 : 0 ≤ d) (K : ℕ) :
    (1 - d) * (∑ k in Finset.range K, roundD g d (k + 1)) ≤ d * roundD g d 0 := by
  have h1 : ∑ k in Finset.range K, roundD g d (k + 1) ≤
      d * ((∑ k in Finset.range K, roundU g d (k + 1)) +
           (∑ k in Finset.range K, roundV g d k)) := by
    calc ∑ k in Finset.range K, roundD g d (k + 1)
        ≤ ∑ k in Finset.range K, d * (roundU g d (k + 1) + roundV g d k) :=
          Finset.sum_le_sum (fun k _ => roundD_succ_le g d hd0 k)
      _ = d * ∑ k in Finset.range K, (roundU g d (k + 1) + roundV g d k) :=
          (Finset.mul_sum _ _ _).symm
      _ = d * ((∑ k in Finset.range K, roundU g d (k + 1)) +
           (∑ k in Finset.range K, roundV g d k)) := by
          rw [Finset.sum_add_distrib]
  have h2 : ∑ k in Finset.range K, roundV g d k ≤
      roundV g d 0 + ∑ k in Finset.range K, roundV g d (k + 1) := by
    have hsub : ∑ k in Finset.range K, roundV g d k ≤
        ∑ k in Finset.range (K + 1), roundV g d k := by
      apply Finset.sum_le_sum_of_subset_of_nonneg
        (Finset.range_subset.mpr (Nat.le_succ K))
      intro k _ _
      exact roundV_nonneg g d k
    rw [Finset.sum_range_succ'] at hsub
    linarith
  have h3 : (∑ k in Finset.range K, roundU g d (k + 1)) +
      (∑ k in Finset.range K, roundV g d (k + 1)) ≤
      ∑ k in Finset.range K, roundD g d (k + 1) := by
    rw [← Finset.sum_add_distrib]
    exact Finset.sum_le_sum (fun k _ => roundUV_le_D g d (k + 1))
  have h4 : roundV g d 0 ≤ roundD g d 0 := roundV_le_D g d 0
  have h5 : ∑ k in Finset.range K, roundD g d (k + 1) ≤
      d * ((∑ k in Finset.range K, roundD g d (k + 1)) + roundD g d 0) := by
    apply le_trans h1
    apply mul_le_mul_of_nonneg_left _ hd0
    linarith
  have h6 : d * ((∑ k in Finset.range K, roundD g d (k + 1)) + roundD g d 0) =
      d * (∑ k in Finset.range K, roundD g d (k + 1)) + d * roundD g d 0 := by ring
  rw [h6] at h5
  linarith

/-- If a round does not pass the break test, its total change is at least
the threshold. -/

theorem not_converged_le_roundD (g : Graph) (d t : ℚ) (k : ℕ)
    (h : convergedRound g t (roundTable g d k) (roundTable g d (k + 1)) = false) :
    t ≤ roundD g d k := by
  have hne : ¬ ∀ p ∈ g.keys,
      |roundTable g d (k + 1) p - roundTable g d k p| < t := by
    intro hall
    have hcount : (g.keys.countP
        (fun p => decide (|roundTable g d (k + 1) p - roundTable g d k p| < t))) =
        g.keys.length :=
      List.countP_eq_length.mpr (fun a ha => decide_eq_true (hall a ha))
    exact of_decide_eq_false h hcount
  push_neg at hne
  obtain ⟨p, hp, hge⟩ := hne
  obtain ⟨jp, hjp, hval⟩ := List.mem_iff_getElem.mp hp
  have hd : t ≤ roundAbsDelta g d k jp := by
    unfold roundAbsDelta nodeAt
    rw [List.getD_eq_getElem g.keys "" hjp, hval]
    exact hge
  calc t ≤ roundAbsDelta g d k jp := hd
    _ ≤ roundD g d k :=
      Finset.single_le_sum (fun j _ => abs_nonneg _) (Finset.mem_range.mpr hjp)

/-- The loop's break test eventually passes: for every damping factor in
`[0, 1)` and positive threshold there is a round whose every per-key
change is below the threshold. -/

theorem exists_converged_round (g : Graph) (d t : ℚ) (hd0 : 0 ≤ d) (hd1 : d < 1)
    (ht : 0 < t) :
    ∃ k, convergedRound g t (roundTable g d k) (roundTable g d (k + 1)) = true := by
  by_contra hcon
  push_neg at hcon
  have hfalse : ∀ k,
      convergedRound g t (roundTable g d k) (roundTable g d (k + 1)) = false :=
    fun k => (Bool.not_eq_true _).mp (hcon k)
  have hlow : ∀ k, t ≤ roundD g d k :=
    fun k => not_converged_le_roundD g d t k (hfalse k)
  have h1d : (0 : ℚ) < 1 - d := by linarith
  have hpos : (0 : ℚ) < (1 - d) * t := by positivity
  have hbound : ∀ K : ℕ, ((1 - d) * t) * (K : ℚ) ≤ d * roundD g d 0 := by
    intro K
    have h1 : (K : ℚ) * t = ∑ _k in Finset.range K, t := by
      rw [Finset.sum_const, Finset.card_range, nsmul_eq_mul]
    have h2 : ∑ _k in Finset.range K, t ≤ ∑ k in Finset.range K, roundD g d (k + 1) :=
      Finset.sum_le_sum (fun k _ => hlow (k + 1))
    have h3 := sum_roundD_le g d hd0 K
    have h4 : (1 - d) * ((K : ℚ) * t) ≤
        (1 - d) * ∑ k in Finset.range K, roundD g d (k + 1) := by
      apply mul_le_mul_of_nonneg_left _ (le_of_lt h1d)
      rw [h1]
      exact h2
    nlinarith
  set K := Nat.ceil ((d * roundD g d 0) / ((1 - d) * t)) + 1 with hK
  have hceil := Nat.le_ceil ((d * roundD g d 0) / ((1 - d) * t))
  have hKgt : (d * roundD g d 0) / ((1 - d) * t) < (K : ℚ) := by
    rw [hK]
    push_cast
    linarith
  have hlt : d * roundD g d 0 < ((1 - d) * t) * (K : ℚ) := by
    rw [div_lt_iff₀ hpos] at hKgt
    linarith
  exact absurd (hbound K) (not_le.mpr hlt)

/-- One unfolding of the loop. -/

theorem iterate_go_succ_eq (g : Graph) (d t : ℚ) (m : ℕ) (r : Node → ℚ) :
    iterate_go g d t (m + 1) r =
      if convergedRound g t r (sweep g d r) then some (sweep g d r)
      else iterate_go g d t m (sweep g d r) := rfl

/-- If some round within the fuel bound passes the break test, the loop
returns a table. -/

theorem iterate_go_some_of_converged (g : Graph) (d t : ℚ) :
    ∀ (m : ℕ) (r : Node → ℚ),
      (∃ k, k < m ∧
        convergedRound g t ((sweep g d)^[k] r) ((sweep g d)^[k + 1] r) = true) →
      ∃ res, iterate_go g d t m r = some res := by
  intro m
  induction m with
  | zero =>
    rintro r ⟨k, hk, _⟩
    omega
  | succ m ih =>
    rintro r ⟨k, hk, hconv⟩
    rw [iterate_go_succ_eq]
    by_cases hc : convergedRound g t r (sweep g d r) = true
    · rw [if_pos hc]
      exact ⟨_, rfl⟩
    · rw [if_neg hc]
      cases k with
      | zero =>
        exfalso
        apply hc
        simpa using hconv
      | succ k' =>
        apply ih (sweep g d r)
        refine ⟨k', by omega, ?_⟩
        rw [Function.iterate_succ_apply, Function.iterate_succ_apply] at hconv
        exact hconv

/-- C6: for every non-empty corpus satisfying the graph invariants and
every damping factor in `(0, 1)`, the `while` loop of `iterate_pagerank`
terminates: some finite fuel makes it return a table. -/

theorem iterate_pagerank_terminates (g : Graph) (d : ℚ) (hne : g.keys ≠ [])
    (hwf : GraphWF g) (hsl : NoSelfLoops g) (hd0 : 0 < d) (hd1 : d < 1) :
    ∃ fuel f, iterate_pagerank g d fuel = some f := by
  obtain ⟨k, hk⟩ := exists_converged_round g d iterate_threshold (le_of_lt hd0) hd1
    (by norm_num [iterate_threshold])
  obtain ⟨res, hres⟩ := iterate_go_some_of_converged g d iterate_threshold (k + 1)
    (initRank g) ⟨k, Nat.lt_succ_self k, hk⟩
  exact ⟨k + 1, res, hres⟩

theorem iterate_pagerank_terminates_witness :
    ∃ fuel f, iterate_pagerank g2 (17 / 20) fuel = some f :=
  iterate_pagerank_terminates g2 (17 / 20) (by decide) (by decide) (by decide)
    (by norm_num) (by norm_num)

/-! Claim theorems: the missing sink handling of the transition model. -/

/-- C1 (code bug evidence): on the one-page sink corpus with damping
0.85, the values of the dict returned by `transition_model` sum to
`3/20 = 0.15`, which is not within `1e-9` of `1`: the code has no sink
fallback, so a sink page's distribution sums to `1 - damping_factor`. -/
theorem transition_model_sink_mass_lost :
    (transition_model gSink "a" (17 / 20)).map
      (fun f => (gSink.keys.map f).sum) = Except.ok (3 / 20) ∧
    ¬ (|(3 : ℚ) / 20 - 1| < 1 / 1000000000) := by
  constructor
  · with_unfolding_all rfl
  · have h : |(3 : ℚ) / 20 - 1| = 17 / 20 := by
      rw [show (3 : ℚ) / 20 - 1 = -(17 / 20) by norm_num, abs_neg,
        abs_of_nonneg (by norm_num : (0 : ℚ) ≤ 17 / 20)]
    rw [h]
    norm_num

/-- C2 (code bug evidence): on the one-page sink corpus with damping
0.85, the sink page receives `3/20`, not the claimed uniform
`1/N = 1`. -/
theorem transition_model_sink_not_uniform :
    (transition_model gSink "a" (17 / 20)).map (fun f => f "a") =
      Except.ok (3 / 20) ∧
    (3 : ℚ) / 20 ≠ 1 / (gSink.keys.length : ℚ) := by
  constructor
  · with_unfolding_all rfl
  · norm_num [gSink]

/-! Claim theorems: sink handling inside the iterative estimator. -/

/-- C3 (code bug evidence): on the spec's three-page scenario (a links to
b and c, b is a sink, c links to a) with damping 0.85 and the uniform
initial table, the incoming sum computed for page a is `1/3` — only c's
mass, with no `oldRank[b]/N = 1/9` contribution from the sink b — and
after one round the total rank has leaked from `1` down to `43/60`. -/
theorem iterate_sink_contributes_nothing :
    sigma g3 (initRank g3) "a" = 1 / 3 ∧
    (g3.keys.map (sweep g3 (17 / 20) (initRank g3))).sum = 43 / 60 ∧
    (43 : ℚ) / 60 ≠ 1 := by
  refine ⟨by with_unfolding_all rfl, by with_unfolding_all rfl, by norm_num⟩

/-- C4 (code bug evidence): on the one-page sink corpus with damping
0.85, the loop of `iterate_pagerank` stops after two rounds and the
returned table sums to `3/20 = 0.15`, not within `1e-6` of `1`. -/
theorem iterate_sink_sum_not_one :
    (iterate_pagerank gSink (17 / 20) 2).map
      (fun f => (gSink.keys.map f).sum) = some (3 / 20) ∧
    ¬ (|(3 : ℚ) / 20 - 1| < 1 / 1000000) := by
  constructor
  · with_unfolding_all rfl
  · have h : |(3 : ℚ) / 20 - 1| = 17 / 20 := by
      rw [show (3 : ℚ) / 20 - 1 = -(17 / 20) by norm_num, abs_neg,
        abs_of_nonneg (by norm_num : (0 : ℚ) ≤ 17 / 20)]
    rw [h]
    norm_num

/-! Claim theorems: the in-place round update. -/

/-- C5 (counterexample): two corpora equal as maps (same out-links, same
key set) but with different dict insertion order produce different values
after one round from the uniform table, because each round writes
`ranks[key]` immediately and later keys read the updated values.  With
keys a, b, c the round computes `689/1200` for b (reading a's value
already updated this round); with keys b, a, c it computes `1/3`. -/
theorem sweep_order_dependent :
    gOrd1.out = gOrd2.out ∧ gOrd1.keys.toFinset = gOrd2.keys.toFinset ∧
    sweep gOrd1 (17 / 20) (initRank gOrd1) "b" ≠
      sweep gOrd2 (17 / 20) (initRank gOrd2) "b" := by
  refine ⟨rfl, by decide, by with_unfolding_all decide⟩

/-- C5 (amended): the round of `iterate_pagerank` updates the rank dict
in place.  The value written for the key at position `i` is computed by
the update rule from a table in which the keys at positions before `i`
already hold this round's new values, while the remaining keys still hold
the previous round's values. -/
theorem sweep_reads_updated_earlier_keys (g : Graph) (d : ℚ) (r : Node → ℚ)
    (i : ℕ) (hi : i < g.keys.length) :
    sweep g d r (nodeAt g i) =
      newRank g d (fun q => if q ∈ g.keys.take i then sweep g d r q else r q)
        (nodeAt g i) :=
  sweep_getD g d r i hi

theorem sweep_reads_updated_earlier_keys_witness :
    sweep gOrd1 (17 / 20) (initRank gOrd1) (nodeAt gOrd1 1) =
      newRank gOrd1 (17 / 20)
        (fun q => if q ∈ gOrd1.keys.take 1 then sweep gOrd1 (17 / 20) (initRank gOrd1) q
         else initRank gOrd1 q) (nodeAt gOrd1 1) :=
  sweep_reads_updated_earlier_keys gOrd1 (17 / 20) (initRank gOrd1) 1 (by decide)

/-! Claim theorems: the iterative estimator's contract. -/

/-- C9 (counterexample): the convergence threshold the code uses is the
internal constant `0.0005 = 1/2000`, not the spec's claimed default
`0.001 = 1/1000`. -/
theorem iterate_threshold_not_spec_default :
    iterate_threshold = 1 / 2000 ∧ iterate_threshold ≠ 1 / 1000 := by
  constructor
  · rfl
  · norm_num [iterate_threshold]

/-- C9 (amended): `iterate_pagerank` takes only the corpus and the
damping factor; its convergence loop always runs with the fixed internal
threshold `1/2000`, which no caller argument can override. -/
theorem iterate_threshold_fixed :
    ∀ g d fuel, iterate_pagerank g d fuel =
      iterate_go g d (1 / 2000) fuel (initRank g) :=
  fun _ _ _ => rfl

/-! Claim theorems: error handling of the transition model. -/

/-- C10: for every corpus and every page that is not a key of the corpus,
`transition_model` fails with the unknown-node error (Python's `KeyError`
from `corpus[page]`), and with no other outcome and no partial result. -/
theorem transition_model_unknown_node (g : Graph) (page : Node) (d : ℚ)
    (h : page ∉ g.keys) :
    transition_model g page d = Except.error (PyErr.keyError page) := by
  unfold transition_model
  exact if_neg h

theorem transition_model_unknown_node_witness :
    transition_model g2 "z" (17 / 20) = Except.error (PyErr.keyError "z") :=
  transition_model_unknown_node g2 "z" (17 / 20) (by decide)

/-! Claim theorems: the transition model on pages with out-links. -/

/-- C7: for a page with a non-empty out-link set, the returned dict gives
each linked node `d/|linked| + (1-d)/N`, gives every corpus key at least
the uniform floor `(1-d)/N`, and gives linked nodes strictly more than
non-linked ones. -/
theorem transition_model_linked_props (g : Graph) (page : Node) (d : ℚ)
    (hwf : GraphWF g) (hpage : page ∈ g.keys) (hd0 : 0 < d) (hd1 : d < 1)
    (hlinks : (g.out page).Nonempty) :
    ∃ f, transition_model g page d = Except.ok f ∧
      (∀ p ∈ g.out page,
        f p = d / ((g.out page).card : ℚ) + (1 - d) / (g.keys.length : ℚ)) ∧
      (∀ p ∈ g.keys, (1 - d) / (g.keys.length : ℚ) ≤ f p) ∧
      ((g.out page).card < g.keys.length →
        ∀ p ∈ g.out page, ∀ q ∈ g.keys, q ∉ g.out page → f q < f p) := by
  have hL : (0 : ℚ) < ((g.out page).card : ℚ) :=
    Nat.cast_pos.mpr (Finset.card_pos.mpr hlinks)
  refine ⟨fun p =>
      (if p ∈ g.out page then d * (1 / ((g.out page).card : ℚ)) else 0) +
      (if p ∈ g.keys then (1 - d) * (1 / (g.keys.length : ℚ)) else 0),
    ?_, ?_, ?_, ?_⟩
  · unfold transition_model
    rw [if_pos hpage]
  · intro p hp
    have hpk : p ∈ g.keys := List.mem_toFinset.mp (hwf page hpage hp)
    simp only [if_pos hp, if_pos hpk, mul_one_div]
  · intro p hpk
    simp only [if_pos hpk, mul_one_div]
    by_cases hp : p ∈ g.out page
    · rw [if_pos hp]
      have h0 : 0 ≤ d / ((g.out page).card : ℚ) := by positivity
      linarith
    · rw [if_neg hp]
      linarith
  · intro _ p hp q hqk hq
    have hpk : p ∈ g.keys := List.mem_toFinset.mp (hwf page hpage hp)
    simp only [if_pos hp, if_pos hpk, if_neg hq, if_pos hqk, mul_one_div]
    have h0 : 0 < d / ((g.out page).card : ℚ) := by positivity
    linarith

theorem transition_model_linked_props_witness :
    ∃ f, transition_model g2 "a" (17 / 20) = Except.ok f ∧
      (∀ p ∈ g2.out "a", f p = (17 / 20) / ((g2.out "a").card : ℚ) +
        (1 - 17 / 20) / (g2.keys.length : ℚ)) ∧
      (∀ p ∈ g2.keys, (1 - 17 / 20) / (g2.keys.length : ℚ) ≤ f p) ∧
      ((g2.out "a").card < g2.keys.length →
        ∀ p ∈ g2.out "a", ∀ q ∈ g2.keys, q ∉ g2.out "a" → f q < f p) :=
  transition_model_linked_props g2 "a" (17 / 20) (by decide) (by decide)
    (by norm_num) (by norm_num) ⟨"b", by decide⟩

/-! Claim theorems: the sampling estimator's total mass. -/

/-- Updating the counter of a key changes the total over the key list by
the difference at that key. -/
theorem map_sum_update (l : List Node) (hl : l.Nodup) (c : Node → ℚ)
    (q : Node) (hq : q ∈ l) (v : ℚ) :
    (l.map (Function.update c q v)).sum = (l.map c).sum + (v - c q) := by
  induction l with
  | nil => cases hq
  | cons a l ih =>
    rcases List.nodup_cons.mp hl with ⟨ha, hl'⟩
    by_cases h : q = a
    · subst h
      have hmap : l.map (Function.update c q v) = l.map c := by
        apply List.map_congr_left
        intro x hx
        have hxq : x ≠ q := fun he => ha (he ▸ hx)
        exact Function.update_noteq hxq v c
      simp only [List.map_cons, List.sum_cons, hmap, Function.update_same]
      ring
    · have hql : q ∈ l := by
        rcases List.mem_cons.mp hq with h' | h'
        · exact absurd h' h
        · exact h'
      simp only [List.map_cons, List.sum_cons,
        Function.update_noteq (Ne.symm h) v c, ih hl' hql]
      ring

/-- Each later draw of the sampling loop adds `1/n` to the drawn key's
counter, so the total over the keys grows by `1/n` per draw. -/
theorem sample_fold_sum (g : Graph) (n : ℕ) (pick : ℕ → Node)
    (hpick : ∀ i, pick i ∈ g.keys) (l : List ℕ) (c : Node → ℚ) :
    (g.keys.map (l.foldl (fun counts i =>
        Function.update counts (pick i) (counts (pick i) + 1 / (n : ℚ))) c)).sum =
      (g.keys.map c).sum + l.length * (1 / (n : ℚ)) := by
  induction l generalizing c with
  | nil => simp
  | cons i l ih =>
    rw [List.foldl_cons, ih]
    rw [map_sum_update g.keys g.nodup c (pick i) (hpick i)]
    simp only [List.length_cons]
    push_cast
    ring

/-- C8: every sample adds exactly `1/n` to exactly one key's counter, so
the values of the returned table sum to exactly `1` in exact rational
arithmetic: `1/n` for the starting page plus `n - 1` further draws. -/
theorem sample_pagerank_sum_one (g : Graph) (d : ℚ) (n : ℕ) (first : Node)
    (pick : ℕ → Node) (hne : g.keys ≠ []) (hd0 : 0 < d) (hd1 : d < 1)
    (hn : 1 ≤ n) (hfirst : first ∈ g.keys) (hpick : ∀ i, pick i ∈ g.keys) :
    (g.keys.map (sample_pagerank g d n first pick)).sum = 1 := by
  have hn0 : ((n : ℚ)) ≠ 0 := Nat.cast_ne_zero.mpr (by omega)
  unfold sample_pagerank
  rw [sample_fold_sum g n pick hpick]
  rw [map_sum_update g.keys g.nodup _ first hfirst]
  have hzero : (g.keys.map (fun _ => (0 : ℚ))).sum = 0 := by simp
  rw [hzero, List.length_range]
  rw [Nat.cast_sub hn]
  push_cast
  field_simp

theorem sample_pagerank_sum_one_witness :
    (g2.keys.map (sample_pagerank g2 (17 / 20) 3 "a" (fun _ => "b"))).sum = 1 :=
  sample_pagerank_sum_one g2 (17 / 20) 3 "a" (fun _ => "b") (by decide)
    (by norm_num) (by norm_num) (by norm_num) (by decide)
    (fun i => (by decide : "b" ∈ g2.keys))

end PageRank
